import Mathlib

/-!
Verification of the YamlNav core (`src/lib/yaml_math.py`): the
indentation-based path builder `get_yaml_symbols` and the cursor-to-symbol
resolver `get_selected_yaml_symbol`, shallowly embedded over lists of
characters and explicit offset regions.  Document text is a `List Char`,
offsets are `Nat`, and the host editor's region type is a pair of offsets.
-/

namespace YamlNav

/-- Host editor region: a pair of offsets, `a` the anchor and `b` the caret
side (models `sublime.Region`).  `a` and `b` need not be ordered. -/
structure Region where
  a : Nat
  b : Nat
deriving DecidableEq

/-- Models `sublime.Region.begin()`: the smaller of the two endpoints. -/
def Region.begin (r : Region) : Nat := min r.a r.b

/-- Models `sublime.Region.end()`: the larger of the two endpoints
(`end` is a Lean keyword, hence the name `stop`). -/
def Region.stop (r : Region) : Nat := max r.a r.b

/-- Models the host editor API `sublime.Region.intersects(rhs)`: true when
the two regions are identical, when an endpoint of `rhs` falls strictly
inside `l`, or when `rhs` strictly covers `l`. -/
def Region.intersects (l r : Region) : Bool :=
  (l.begin == r.begin && l.stop == r.stop)
  || (r.begin > l.begin && r.begin < l.stop)
  || (r.stop > l.begin && r.stop < l.stop)
  || (r.begin < l.begin && r.stop > l.stop)

/-- Output entity of the path builder: a dot-joined key path plus the
originating token's region (class `Symbol` in `yaml_math.py`). -/
structure Symbol where
  name : String
  region : Region
deriving DecidableEq

/-- Stack frame of the path builder: a trimmed key and the column at which
its token begins (class `Level` in `yaml_math.py`). -/
structure Level where
  key : String
  indent : Nat
deriving DecidableEq

/-- Python slice `content[b:e]` on a character list (clamping, empty when
`e ≤ b`). -/
def sliceText (content : List Char) (b e : Nat) : List Char :=
  (content.drop b).take (e - b)

/-- Python `str.strip()`: remove leading and trailing whitespace. -/
def stripText (s : List Char) : List Char :=
  ((s.dropWhile Char.isWhitespace).reverse.dropWhile Char.isWhitespace).reverse

/-- Python `content.rfind("\n", 0, b)`: the largest index `p < b` holding a
newline, `none` when there is none (Python returns `-1` then). -/
def rfindNewline (content : List Char) : Nat → Option Nat
  | 0 => none
  | n + 1 => if content[n]? = some '\n' then some n else rfindNewline content n

/-- The indent computation of `get_yaml_symbols` (line 48 of
`yaml_math.py`): `region.begin() - content.rfind("\n", 0, region.begin()) - 1`,
the character count from the start of the line to the token start. -/
def indentOf (content : List Char) (b : Nat) : Nat :=
  match rfindNewline content b with
  | none => b
  | some p => b - p - 1

/-- The key computation of `get_yaml_symbols` (line 45 of `yaml_math.py`):
`content[region.begin():region.end()].strip()`. -/
def keyOf (content : List Char) (r : Region) : String :=
  String.mk (stripText (sliceText content r.begin r.stop))

/-- One iteration of the `get_yaml_symbols` loop acting on the key stack
`current_path`, with the TOP of the Python list (its last element) kept at
the HEAD of the Lean list: pop frames while the top frame's indent is `≥`
the token's indent (line 51), then push the new frame (line 54). -/
def symStep (content : List Char) (path : List Level) (r : Region) : List Level :=
  let key := keyOf content r
  let indent := indentOf content r.begin
  ⟨key, indent⟩ :: path.dropWhile (fun lv => decide (indent ≤ lv.indent))

/-- The symbol name built at line 56 of `yaml_math.py`:
`".".join(item.key for item in current_path)`, root first — the stack list
is top-first here, hence the reversal. -/
def pathName (path : List Level) : String :=
  String.intercalate "." (path.reverse.map Level.key)

/-- The main loop of `get_yaml_symbols` (lines 44-57): thread the key stack
through the token regions, emitting one symbol per token. -/
def symbolsFrom (content : List Char) (path : List Level) : List Region → List Symbol
  | [] => []
  | r :: rs =>
    let path' := symStep content path r
    ⟨pathName path', r⟩ :: symbolsFrom content path' rs

/-- `get_yaml_symbols` of `yaml_math.py`, with the host interaction already
performed: `content` is the full buffer text and `regions` the token
regions the host's selector query returned. -/
def get_yaml_symbols (content : List Char) (regions : List Region) : List Symbol :=
  symbolsFrom content [] regions

/-- The key stack (`current_path`) left after processing the given tokens,
top of the stack first. -/
def stackAfter (content : List Char) (regions : List Region) : List Level :=
  regions.foldl (symStep content) []

/-- The slice of the host `View` the resolver consumes: the buffer text and
the selection list (`view.sel()`). -/
structure View where
  text : List Char
  sel : List Region
deriving DecidableEq

/-- The zero-width region at a selection's caret:
`sublime.Region(sel.b, sel.b)` (line 87 of `yaml_math.py`). -/
def caretRegion (s : Region) : Region := ⟨s.b, s.b⟩

/-- Helper for `linesOfText`: split `[start, …)` at each newline, carrying
the index of the next unread character. -/
def linesAux : Nat → Nat → List Char → List Region
  | start, idx, [] => [⟨start, idx⟩]
  | start, idx, c :: cs =>
    if c = '\n' then ⟨start, idx⟩ :: linesAux (idx + 1) (idx + 1) cs
    else linesAux start (idx + 1) cs

/-- All full-line regions of a text, newline characters excluded; a
trailing newline yields a final empty line, as in the host editor. -/
def linesOfText (content : List Char) : List Region := linesAux 0 0 content

/-- Models the host editor API `view.lines(region)`: the full-line regions
touching the given region (a point sitting on a newline belongs to the line
that newline terminates). -/
def View.lines (v : View) (r : Region) : List Region :=
  (linesOfText v.text).filter
    (fun L => decide (L.begin ≤ r.stop) && decide (r.begin ≤ L.stop))

/-- `iter_regions` of `yaml_math.py` (lines 83-91): caret points first,
then the selections themselves, then the whole lines covering each
selection; the Python generator's lazy yields are materialised as a list. -/
def iter_regions (v : View) : List Region :=
  v.sel.map caretRegion ++ v.sel ++ v.sel.flatMap v.lines

/-- One pass of the inner `for symbol in yaml_symbols` loop of
`get_selected_yaml_symbol` over the one-shot iterator `yaml_symbols`:
returns the first symbol the probe region accepts together with the
iterator's REMAINING elements — a Python `list_reverseiterator` is
consumed, not replayed. -/
def scanIter (p : Symbol → Bool) : List Symbol → Option Symbol × List Symbol
  | [] => (none, [])
  | s :: rest => if p s then (some s, rest) else scanIter p rest

/-- The nested loops of `get_selected_yaml_symbol` (lines 75-78): walk the
probe regions, each probing the SAME iterator state `it` — a probe that
fails leaves the iterator exhausted for the probes after it. -/
def findAcrossRegions (it : List Symbol) : List Region → Option Symbol
  | [] => none
  | r :: rs =>
    let res := scanIter (fun s => r.intersects s.region) it
    match res.1 with
    | some s => some s
    | none => findAcrossRegions res.2 rs

/-- `get_selected_yaml_symbol` of `yaml_math.py`: `None` on an empty symbol
list or on anything but exactly one selection, else the nested probe loops
over `reversed(symbols)`. -/
def get_selected_yaml_symbol (symbols : List Symbol) (view : View) : Option Symbol :=
  if symbols.isEmpty then none
  else if view.sel.length ≠ 1 then none
  else findAcrossRegions symbols.reverse (iter_regions view)

/-! Helper lemmas about the path builder. -/

theorem symbolsFrom_map_region (content : List Char) :
    ∀ (rs : List Region) (path : List Level),
      (symbolsFrom content path rs).map Symbol.region = rs := by
  intro rs
  induction rs with
  | nil => intro path; rfl
  | cons r rs ih => intro path; simp [symbolsFrom, ih]

theorem dropWhile_decomposition {α : Type} (p : α → Bool) (l : List α) :
    ∃ pre, l = pre ++ l.dropWhile p ∧ (∀ x ∈ pre, p x = true)
      ∧ ∀ x ∈ (l.dropWhile p).head?, p x = false := by
  induction l with
  | nil => exact ⟨[], rfl, by simp, by simp⟩
  | cons a l ih =>
    cases h : p a with
    | false =>
      refine ⟨[], ?_, by simp, ?_⟩
      · simp [List.dropWhile_cons, h]
      · intro x hx
        simp only [List.dropWhile_cons, h, Bool.false_eq_true, if_false,
          Option.mem_def, List.head?_cons, Option.some_inj] at hx
        rw [hx] at h
        exact h
    | true =>
      obtain ⟨pre, heq, hpre, hhead⟩ := ih
      refine ⟨a :: pre, ?_, ?_, ?_⟩
      · rw [List.dropWhile_cons, h]
        simpa using heq
      · intro x hx
        rcases List.mem_cons.mp hx with hx | hx
        · rw [hx]; exact h
        · exact hpre x hx
      · intro x hx
        rw [List.dropWhile_cons, h] at hx
        exact hhead x hx

theorem rfindNewline_none (content : List Char) :
    ∀ b, rfindNewline content b = none → ∀ j, j < b → content[j]? ≠ some '\n' := by
  intro b
  induction b with
  | zero => intro _ j hj; omega
  | succ n ih =>
    intro h j hj
    simp only [rfindNewline] at h
    split at h
    · exact absurd h (Option.some_ne_none n)
    · rename_i hc
      rcases Nat.lt_succ_iff_lt_or_eq.mp hj with hlt | heq
      · exact ih h j hlt
      · rw [heq]; exact hc

theorem rfindNewline_some (content : List Char) :
    ∀ b p, rfindNewline content b = some p →
      p < b ∧ content[p]? = some '\n' ∧ ∀ j, p < j → j < b → content[j]? ≠ some '\n' := by
  intro b
  induction b with
  | zero => intro p h; simp [rfindNewline] at h
  | succ n ih =>
    intro p h
    simp only [rfindNewline] at h
    split at h
    · rename_i hc
      cases h
      exact ⟨Nat.lt_succ_self n, hc, fun j hj1 hj2 => by omega⟩
    · rename_i hc
      obtain ⟨hp, hnl, hrest⟩ := ih p h
      refine ⟨Nat.lt_succ_of_lt hp, hnl, ?_⟩
      intro j hj1 hj2
      rcases Nat.lt_succ_iff_lt_or_eq.mp hj2 with hlt | heq
      · exact hrest j hj1 hlt
      · rw [heq]; exact hc

theorem symbolsFrom_get_name (content : List Char) :
    ∀ (rs : List Region) (path : List Level) (i : Nat)
      (h : i < (symbolsFrom content path rs).length),
      ((symbolsFrom content path rs).get ⟨i, h⟩).name
        = pathName ((rs.take (i + 1)).foldl (symStep content) path) := by
  intro rs
  induction rs with
  | nil => intro path i h; simp [symbolsFrom] at h
  | cons r rs ih =>
    intro path i h
    cases i with
    | zero => rfl
    | succ n =>
      have h' : n < (symbolsFrom content (symStep content path r) rs).length := by
        simp only [symbolsFrom, List.length_cons] at h
        omega
      exact ih (symStep content path r) n h'

theorem foldl_symStep_mem (content : List Char) :
    ∀ (rs : List Region) (path : List Level) (lv : Level),
      lv ∈ rs.foldl (symStep content) path →
      lv ∈ path ∨ ∃ r ∈ rs, lv = ⟨keyOf content r, indentOf content r.begin⟩ := by
  intro rs
  induction rs with
  | nil => intro path lv h; exact Or.inl h
  | cons r rs ih =>
    intro path lv h
    rcases ih (symStep content path r) lv h with hmem | ⟨r', hr', heq⟩
    · simp only [symStep] at hmem
      rcases List.mem_cons.mp hmem with heq | hmem'
      · exact Or.inr ⟨r, List.mem_cons_self r rs, heq⟩
      · exact Or.inl (List.Sublist.mem hmem' (List.dropWhile_sublist _))
    · exact Or.inr ⟨r', List.mem_cons_of_mem r hr', heq⟩

theorem chain'_dropWhile {α : Type} {R : α → α → Prop} (p : α → Bool) :
    ∀ l : List α, List.Chain' R l → List.Chain' R (l.dropWhile p) := by
  intro l
  induction l with
  | nil => intro h; exact h
  | cons a l ih =>
    intro h
    rw [List.dropWhile_cons]
    split
    · exact ih h.tail
    · exact h

theorem symStep_chain (content : List Char) (path : List Level) (r : Region)
    (h : List.Chain' (fun x y : Level => y.indent < x.indent) path) :
    List.Chain' (fun x y : Level => y.indent < x.indent) (symStep content path r) := by
  simp only [symStep]
  apply List.chain'_cons'.mpr
  constructor
  · intro y hy
    have hh := List.head?_dropWhile_not
      (fun lv : Level => decide (indentOf content r.begin ≤ lv.indent)) path
    rw [Option.mem_def] at hy
    rw [hy] at hh
    exact Nat.not_le.mp (of_decide_eq_false hh)
  · exact chain'_dropWhile _ path h

/-! The builder claims. -/

/-- C4: `get_yaml_symbols` returns exactly one symbol per input token, in
input order — the list of the output symbols' regions IS the input region
list — and the empty token list yields the empty output. -/
theorem c4_one_symbol_per_token (content : List Char) (regions : List Region) :
    (get_yaml_symbols content regions).map Symbol.region = regions
    ∧ (get_yaml_symbols content regions).length = regions.length
    ∧ get_yaml_symbols content [] = [] := by
  have h : (get_yaml_symbols content regions).map Symbol.region = regions :=
    symbolsFrom_map_region content regions []
  refine ⟨h, ?_, rfl⟩
  calc (get_yaml_symbols content regions).length
      = ((get_yaml_symbols content regions).map Symbol.region).length :=
        (List.length_map _ _).symm
    _ = regions.length := by rw [h]

/-- C2: before a token's frame is pushed, frames are popped from the top of
the stack exactly while the stack is non-empty and the top frame's indent is
`≥` the token's indent (the popped frames form the maximal such top segment
and the surviving top, if any, has strictly smaller indent); in particular
the tokens a/b/c at indents 0/2/2 yield names `a`, `a.b`, `a.c`, and at
indents 0/2/0 yield `a`, `a.b`, `c`. -/
theorem c2_pop_while_indent_ge :
    (∀ (content : List Char) (path : List Level) (r : Region),
      ∃ popped kept, path = popped ++ kept
        ∧ symStep content path r
          = ⟨keyOf content r, indentOf content r.begin⟩ :: kept
        ∧ (∀ lv ∈ popped, indentOf content r.begin ≤ lv.indent)
        ∧ (∀ lv ∈ kept.head?, lv.indent < indentOf content r.begin))
    ∧ (get_yaml_symbols "a:\n  b:\n  c:\n".toList
        [⟨0, 1⟩, ⟨5, 6⟩, ⟨10, 11⟩]).map Symbol.name = ["a", "a.b", "a.c"]
    ∧ (get_yaml_symbols "a:\n  b:\nc:\n".toList
        [⟨0, 1⟩, ⟨5, 6⟩, ⟨8, 9⟩]).map Symbol.name = ["a", "a.b", "c"] := by
  refine ⟨?_, by decide, by decide⟩
  intro content path r
  obtain ⟨pre, heq, hpre, hhead⟩ := dropWhile_decomposition
    (fun lv : Level => decide (indentOf content r.begin ≤ lv.indent)) path
  refine ⟨pre, _, heq, rfl, ?_, ?_⟩
  · intro lv hlv
    exact of_decide_eq_true (hpre lv hlv)
  · intro lv hlv
    exact Nat.not_le.mp (of_decide_eq_false (hhead lv hlv))

/-- C3: the indent of a token beginning at offset `b` is the number of
characters strictly between the most recent newline before `b` and `b`
itself, `b` when no newline precedes it; it is `0` at the start of the
document and immediately after a newline. -/
theorem c3_indent_is_column :
    (∀ (content : List Char) (b : Nat),
      ((∀ j, j < b → content[j]? ≠ some '\n') ∧ indentOf content b = b)
      ∨ (∃ p, p < b ∧ content[p]? = some '\n'
          ∧ (∀ j, p < j → j < b → content[j]? ≠ some '\n')
          ∧ indentOf content b = b - p - 1))
    ∧ (∀ content : List Char, indentOf content 0 = 0)
    ∧ (∀ (content : List Char) (p : Nat),
        content[p]? = some '\n' → indentOf content (p + 1) = 0) := by
  refine ⟨?_, fun content => rfl, ?_⟩
  · intro content b
    cases h : rfindNewline content b with
    | none =>
      exact Or.inl ⟨rfindNewline_none content b h, by simp [indentOf, h]⟩
    | some p =>
      obtain ⟨hp, hnl, hrest⟩ := rfindNewline_some content b p h
      exact Or.inr ⟨p, hp, hnl, hrest, by simp [indentOf, h]⟩
  · intro content p hnl
    have h : rfindNewline content (p + 1) = some p := by
      simp [rfindNewline, hnl]
    simp [indentOf, h]

/-- C5: the i-th emitted symbol's name is the dot-join, root to leaf, of
the keys on the stack at the moment its token was processed, and every
frame on that stack carries the stripped text and the column of one of the
tokens processed so far. -/
theorem c5_name_joins_stack (content : List Char) (regions : List Region) (i : Nat)
    (h : i < (get_yaml_symbols content regions).length) :
    ((get_yaml_symbols content regions).get ⟨i, h⟩).name
      = pathName (stackAfter content (regions.take (i + 1)))
    ∧ ∀ lv ∈ stackAfter content (regions.take (i + 1)),
        ∃ r ∈ regions.take (i + 1),
          lv.key = keyOf content r ∧ lv.indent = indentOf content r.begin := by
  constructor
  · exact symbolsFrom_get_name content regions [] i h
  · intro lv hlv
    rcases foldl_symStep_mem content (regions.take (i + 1)) [] lv hlv with hmem | hex
    · cases hmem
    · obtain ⟨r, hr, heq⟩ := hex
      exact ⟨r, hr, by rw [heq], by rw [heq]⟩

/-- Witness for C5 at a concrete document and token list. -/
theorem c5_name_joins_stack_witness :
    ((get_yaml_symbols "a:\n  b:\n  c:\n".toList
        [⟨0, 1⟩, ⟨5, 6⟩, ⟨10, 11⟩]).get ⟨1, by decide⟩).name
      = pathName (stackAfter "a:\n  b:\n  c:\n".toList
          ([⟨0, 1⟩, ⟨5, 6⟩, ⟨10, 11⟩].take 2))
    ∧ ∀ lv ∈ stackAfter "a:\n  b:\n  c:\n".toList
        ([⟨0, 1⟩, ⟨5, 6⟩, ⟨10, 11⟩].take 2),
        ∃ r ∈ [(⟨0, 1⟩ : Region), ⟨5, 6⟩, ⟨10, 11⟩].take 2,
          lv.key = keyOf "a:\n  b:\n  c:\n".toList r
          ∧ lv.indent = indentOf "a:\n  b:\n  c:\n".toList r.begin :=
  c5_name_joins_stack "a:\n  b:\n  c:\n".toList [⟨0, 1⟩, ⟨5, 6⟩, ⟨10, 11⟩] 1 (by decide)

/-- C8: the path builder is total — for EVERY content and token list,
ordered or not, it runs to completion and returns one symbol per token;
evaluated here on an out-of-order, overlapping token list. -/
theorem c8_total_on_malformed_input :
    (∀ (content : List Char) (regions : List Region),
      (get_yaml_symbols content regions).length = regions.length)
    ∧ get_yaml_symbols "a:\n  b:\n".toList [⟨5, 6⟩, ⟨0, 6⟩]
      = [⟨"b", ⟨5, 6⟩⟩, ⟨"a:\n  b", ⟨0, 6⟩⟩] := by
  refine ⟨?_, by decide⟩
  intro content regions
  have h : (get_yaml_symbols content regions).map Symbol.region = regions :=
    symbolsFrom_map_region content regions []
  calc (get_yaml_symbols content regions).length
      = ((get_yaml_symbols content regions).map Symbol.region).length :=
        (List.length_map _ _).symm
    _ = regions.length := by rw [h]

/-- C9: at every moment of a run of the path builder the indents of the
stacked frames strictly increase from the bottom of the stack to its top
(the stack list here is top-first, so it is strictly decreasing along the
list), and each step preserves this. -/
theorem c9_stack_indents_strictly_increase :
    (∀ (content : List Char) (regions : List Region) (n : Nat),
      List.Chain' (fun x y : Level => y.indent < x.indent)
        (stackAfter content (regions.take n)))
    ∧ ∀ (content : List Char) (path : List Level) (r : Region),
      List.Chain' (fun x y : Level => y.indent < x.indent) path →
      List.Chain' (fun x y : Level => y.indent < x.indent) (symStep content path r) := by
  have hfold : ∀ (content : List Char) (rs : List Region) (path : List Level),
      List.Chain' (fun x y : Level => y.indent < x.indent) path →
      List.Chain' (fun x y : Level => y.indent < x.indent)
        (rs.foldl (symStep content) path) := by
    intro content rs
    induction rs with
    | nil => intro path h; exact h
    | cons r rs ih => intro path h; exact ih _ (symStep_chain content path r h)
  exact ⟨fun content regions n => hfold content _ [] List.chain'_nil, symStep_chain⟩

/-! Helper lemmas about the resolver. -/

theorem scanIter_fst (p : Symbol → Bool) :
    ∀ l : List Symbol, (scanIter p l).1 = l.find? p := by
  intro l
  induction l with
  | nil => rfl
  | cons s rest ih =>
    cases h : p s with
    | true => simp [scanIter, h]
    | false => simp [scanIter, h, ih]

theorem find?_reverse_eq_getLast?_filter {α : Type} (p : α → Bool) (l : List α) :
    l.reverse.find? p = (l.filter p).getLast? := by
  rw [← List.filter_head?, List.filter_reverse, List.head?_reverse]

theorem scanIter_some_mem (p : Symbol → Bool) :
    ∀ (l : List Symbol) (s : Symbol), (scanIter p l).1 = some s → s ∈ l := by
  intro l
  induction l with
  | nil => intro s h; cases h
  | cons a rest ih =>
    intro s h
    cases hp : p a with
    | true =>
      simp [scanIter, hp] at h
      rw [← h]
      exact List.mem_cons_self a rest
    | false =>
      simp only [scanIter, hp, Bool.false_eq_true, if_false] at h
      exact List.mem_cons_of_mem a (ih s h)

theorem scanIter_snd_mem (p : Symbol → Bool) :
    ∀ (l : List Symbol) (x : Symbol), x ∈ (scanIter p l).2 → x ∈ l := by
  intro l
  induction l with
  | nil => intro x h; cases h
  | cons a rest ih =>
    intro x h
    cases hp : p a with
    | true =>
      simp only [scanIter, hp, if_true] at h
      exact List.mem_cons_of_mem a h
    | false =>
      simp only [scanIter, hp, Bool.false_eq_true, if_false] at h
      exact List.mem_cons_of_mem a (ih x h)

theorem findAcrossRegions_mem :
    ∀ (rs : List Region) (it : List Symbol) (s : Symbol),
      findAcrossRegions it rs = some s → s ∈ it := by
  intro rs
  induction rs with
  | nil => intro it s h; cases h
  | cons r rs ih =>
    intro it s h
    simp only [findAcrossRegions] at h
    cases hscan : (scanIter (fun sym => r.intersects sym.region) it).1 with
    | some x =>
      rw [hscan] at h
      simp only [Option.some_inj] at h
      rw [← h]
      exact scanIter_some_mem _ it x hscan
    | none =>
      rw [hscan] at h
      exact scanIter_snd_mem _ it s (ih _ s h)

/-! The resolver claims. -/

/-- C1 (divergence record): with one selection whose caret probe misses the
only symbol while the full-selection probe of `iter_regions` intersects it,
the resolver still returns none — the failed tier-1 scan exhausts the
one-shot reversed iterator, so the tier-2 and tier-3 probes are tested
against no symbols at all. -/
theorem c1_later_tiers_never_probed :
    get_selected_yaml_symbol [⟨"a", ⟨0, 1⟩⟩] ⟨"a: 1\n".toList, [⟨0, 3⟩]⟩ = none
    ∧ (⟨0, 3⟩ : Region) ∈ iter_regions ⟨"a: 1\n".toList, [⟨0, 3⟩]⟩
    ∧ Region.intersects ⟨0, 3⟩ ⟨0, 1⟩ = true
    ∧ (caretRegion ⟨0, 3⟩).intersects ⟨0, 1⟩ = false := by
  decide

/-- C6: with exactly one selection whose caret probe intersects at least
one symbol's region, the resolver returns the last (highest-index, deepest)
intersecting symbol of the list, found first by the reverse scan. -/
theorem c6_caret_returns_last_match (symbols : List Symbol) (text : List Char)
    (s : Region) (hne : symbols ≠ [])
    (hhit : ∃ sym ∈ symbols, (caretRegion s).intersects sym.region = true) :
    get_selected_yaml_symbol symbols ⟨text, [s]⟩
      = (symbols.filter
          (fun sym => (caretRegion s).intersects sym.region)).getLast? := by
  have hfind :
      symbols.reverse.find? (fun sym => (caretRegion s).intersects sym.region)
        = (symbols.filter
            (fun sym => (caretRegion s).intersects sym.region)).getLast? :=
    find?_reverse_eq_getLast?_filter _ symbols
  obtain ⟨sym, hmem, hp⟩ := hhit
  have hsome : (symbols.reverse.find?
      (fun sym => (caretRegion s).intersects sym.region)).isSome := by
    rw [List.find?_isSome]
    exact ⟨sym, List.mem_reverse.mpr hmem, hp⟩
  obtain ⟨x, hx⟩ := Option.isSome_iff_exists.mp hsome
  have h1 : symbols.isEmpty = false := by
    cases symbols with
    | nil => exact absurd rfl hne
    | cons a l => rfl
  have h2 : ¬(View.sel ⟨text, [s]⟩).length ≠ 1 := by simp
  rw [get_selected_yaml_symbol, h1]
  simp only [Bool.false_eq_true, if_false]
  rw [if_neg h2]
  have hiter : iter_regions ⟨text, [s]⟩
      = caretRegion s :: s :: [s].flatMap (View.lines ⟨text, [s]⟩) := rfl
  rw [hiter]
  calc findAcrossRegions symbols.reverse
        (caretRegion s :: s :: [s].flatMap (View.lines ⟨text, [s]⟩))
      = some x := by
        simp only [findAcrossRegions]
        rw [scanIter_fst, hx]
    _ = (symbols.filter
          (fun sym => (caretRegion s).intersects sym.region)).getLast? := by
        rw [← hx, hfind]

/-- Witness for C6: the caret at offset 1 sits inside both symbols'
regions; the later, deeper one wins. -/
theorem c6_caret_returns_last_match_witness :
    get_selected_yaml_symbol [⟨"root", ⟨0, 10⟩⟩, ⟨"root.k", ⟨0, 3⟩⟩]
        ⟨"root: k: 1".toList, [⟨1, 1⟩]⟩
      = ([⟨"root", ⟨0, 10⟩⟩, ⟨"root.k", ⟨0, 3⟩⟩].filter
          (fun sym => (caretRegion ⟨1, 1⟩).intersects sym.region)).getLast? :=
  c6_caret_returns_last_match [⟨"root", ⟨0, 10⟩⟩, ⟨"root.k", ⟨0, 3⟩⟩]
    "root: k: 1".toList ⟨1, 1⟩ (by decide)
    ⟨⟨"root.k", ⟨0, 3⟩⟩, by decide, by decide⟩

/-- C7: the resolver returns none on an empty symbol list, and on a cursor
state holding any number of selections other than one, whatever the
symbol list holds. -/
theorem c7_none_on_empty_or_multicursor (symbols : List Symbol) (view : View)
    (h : symbols = [] ∨ view.sel.length ≠ 1) :
    get_selected_yaml_symbol symbols view = none := by
  rcases h with h | h
  · simp [get_selected_yaml_symbol, h]
  · simp [get_selected_yaml_symbol, h]

/-- Witness for C7: two carets force none even though a symbol matches
either caret alone. -/
theorem c7_none_on_empty_or_multicursor_witness :
    get_selected_yaml_symbol [⟨"a", ⟨0, 2⟩⟩] ⟨"a:".toList, [⟨1, 1⟩, ⟨0, 0⟩]⟩ = none :=
  c7_none_on_empty_or_multicursor _ _ (Or.inr (by decide))

/-- C10: a symbol the resolver returns is an element of the input symbol
list, name and region unchanged; the resolver never fabricates one. -/
theorem c10_result_is_list_element (symbols : List Symbol) (view : View)
    (sym : Symbol) (h : get_selected_yaml_symbol symbols view = some sym) :
    sym ∈ symbols := by
  rw [get_selected_yaml_symbol] at h
  split at h
  · cases h
  · split at h
    · cases h
    · exact List.mem_reverse.mp (findAcrossRegions_mem _ _ sym h)

/-- Witness for C10 at a concrete resolver call that returns a symbol. -/
theorem c10_result_is_list_element_witness :
    (⟨"k", ⟨0, 3⟩⟩ : Symbol) ∈ [⟨"top", ⟨0, 9⟩⟩, ⟨"k", ⟨0, 3⟩⟩] :=
  c10_result_is_list_element [⟨"top", ⟨0, 9⟩⟩, ⟨"k", ⟨0, 3⟩⟩]
    ⟨"k: 1\nx: 2".toList, [⟨2, 2⟩]⟩ ⟨"k", ⟨0, 3⟩⟩ (by decide)

end YamlNav
